import Mathlib

/-!
# Verification of boltdb-cli's command core

A shallow embedding, in Lean 4, of the pure algorithmic core of the
`boltdb-cli` repository: the history-compaction algorithm
(`command/context.go`, `keepMaxLine`), the byte/string codec
(`command/db.go`, `bytesToString` / `stringToBytes`), the paginated table
printer (`tablePrinter` / `askContinue`), the `keys`-command argument
parsing, the command registrations (`NewRegisterWithDB`), and the
dispatcher's tokenization (`commands.Execute`).

Go byte strings are modelled as `List Nat` (each element a byte value);
Go strings used purely as tokens are modelled as Lean `String` where byte
structure is irrelevant.  Stateful code is modelled by explicit state
passing.  Fallible code returns `Except`/`Option`.
-/

namespace BoltCli

/-! ## History compaction: `keepMaxLine` (command/context.go lines 128-177)

The Go code scans the history file line by line and folds the lines with:

    var pos = -1
    for i := range lines {
      if lines[i] == t { pos = i; break }
    }
    if pos > 0 {
      lines[len(lines)-1], lines[pos] = lines[pos], lines[len(lines)-1]
    } else {
      lines = append(lines, t)
    }

then writes the folded list, skipping lines from the front while
`lineCount > maxLine`. -/

/-- Index of the first occurrence of `t` in `lines`, `-1` when absent:
the `var pos = -1; for i := range lines { ... break }` loop. -/
def findPos (lines : List String) (t : String) : Int :=
  match lines with
  | [] => -1
  | l :: ls =>
    if l = t then 0
    else
      let p := findPos ls t
      if p < 0 then -1 else p + 1

/-- One step of the fold in `keepMaxLine`: when the first occurrence of
`t` is at a positive index, swap it with the current last element
(simultaneous Go tuple assignment); otherwise (absent, or first
occurrence at index 0) append `t`. -/
def foldStep (lines : List String) (t : String) : List String :=
  let pos := findPos lines t
  if pos > 0 then
    let last := lines.length - 1
    (lines.set last (lines.getD pos.toNat "")).set pos.toNat (lines.getD last "")
  else lines ++ [t]

/-- The scan loop of `keepMaxLine`: fold every input line into the
accumulated `lines` slice, starting from empty. -/
def keepMaxLineFold (input : List String) : List String :=
  input.foldl foldStep []

/-- The write loop of `keepMaxLine`: `lineCount` starts at the folded
length and lines are skipped from the front while `lineCount > maxLine`;
once the budget is met, all remaining lines are written. -/
def writeLines (maxLine : Nat) : Nat → List String → List String
  | _, [] => []
  | lineCount, l :: ls =>
    if lineCount > maxLine then writeLines maxLine (lineCount - 1) ls
    else l :: writeLines maxLine lineCount ls

/-- `keepMaxLine`: fold the input lines, then write at most `maxLine` of
them, dropping from the front.  (Go's `maxLine` is an `int64`; the
configured value `MaxLines = 65536` is nonnegative, so it is modelled as
`Nat`.) -/
def keepMaxLine (input : List String) (maxLine : Nat) : List String :=
  let lines := keepMaxLineFold input
  writeLines maxLine lines.length lines

/-! ## `keys` argument parsing (command/db.go lines 304-322)

`commandListBucketKeys` switches on `len(args)`; the returned pair is
`(withValue, pattern)`. -/

/-- The `switch len(args)` block of `commandListBucketKeys`:
with 2 args, `args[1]` is the flag `withvalue` or else the pattern; with
3 args, `withValue` is set unconditionally and the pattern is whichever
of `args[1]`/`args[2]` is not the flag (empty when neither is). -/
def listBucketKeysArgs : List String → Bool × String
  | [_, a1] => if a1 = "withvalue" then (true, "") else (false, a1)
  | [_, a1, a2] =>
    (true, if a1 = "withvalue" then a2 else if a2 = "withvalue" then a1 else "")
  | _ => (false, "")

/-! ## Dispatcher tokenization (part_000 lines 60-79, context.go lines 56-72)

`commands.Execute` runs `strings.Fields(cmd)` and immediately reads
`fullargs[0]`; the session loop `Context.Next` re-reads whenever the
line is exactly the empty string. -/

/-- Go's `unicode.IsSpace` restricted to single bytes, as used by
`strings.Fields` on ASCII input: space, \t, \n, \v, \f, \r, NEL(0x85),
NBSP(0xa0). -/
def isGoSpace (c : Nat) : Bool :=
  c = 32 || c = 9 || c = 10 || c = 11 || c = 12 || c = 13 || c = 133 || c = 160

/-- `strings.Fields`: split around runs of whitespace, returning the
(possibly empty) list of maximal non-space runs. -/
def goFields (s : List Nat) : List (List Nat) :=
  match s with
  | [] => []
  | c :: rest =>
    if isGoSpace c then goFields rest
    else (c :: rest.takeWhile (fun b => !isGoSpace b)) ::
      goFields (rest.dropWhile (fun b => !isGoSpace b))
termination_by s.length
decreasing_by
  · simp only [List.length_cons]; omega
  · simp only [List.length_cons]
    exact Nat.lt_succ_of_le (List.dropWhile_sublist _).length_le

/-- The blank-line filter of `Context.Next`: a line is re-read (skipped)
exactly when it is the empty string. -/
def nextAcceptsLine (line : List Nat) : Bool :=
  line ≠ []

/-! ## Byte/string codec (command/db.go lines 83-96)

`bytesToString` is `fmt.Sprintf("%q", b)` — i.e. `strconv.Quote` of the
byte string — followed by the replacer
`strings.NewReplacer("\n", "\\x0a", "\r", "\\x0d", "\\\"", "\"", "\"", "")`.
`stringToBytes` replaces every match of the regexp ``\\x[a-z0-9]{2}``
with the byte `strconv.ParseUint(match[2:], 16, 8)` parses to (the parse
error is discarded, leaving 0). -/

/-- Lowercase hexadecimal digit character (Go's `lowerhex` table). -/
def hexDigitChr (n : Nat) : Nat := if n < 10 then 48 + n else 87 + n

/-- Two lowercase hex digits of a byte, as emitted in a `\xHH` escape. -/
def hex2 (b : Nat) : List Nat := [hexDigitChr (b / 16 % 16), hexDigitChr (b % 16)]

/-- Four lowercase hex digits, as emitted in a `\uHHHH` escape. -/
def hex4 (r : Nat) : List Nat :=
  [hexDigitChr (r / 4096 % 16), hexDigitChr (r / 256 % 16),
   hexDigitChr (r / 16 % 16), hexDigitChr (r % 16)]

/-- Eight lowercase hex digits, as emitted in a `\UHHHHHHHH` escape. -/
def hex8 (r : Nat) : List Nat := hex4 (r / 65536) ++ hex4 r

/-- Modelled on Go's `utf8.DecodeRune`: decode the first rune of a byte
string, returning `(rune, width)`; every invalid encoding (stray
continuation byte, overlong form, surrogate, out of range, truncated
sequence) yields `(0xfffd, 1)`. -/
def utf8Decode1 : List Nat → Nat × Nat
  | [] => (0xfffd, 0)
  | c0 :: rest =>
    if c0 < 0x80 then (c0, 1)
    else if c0 < 0xc2 then (0xfffd, 1)
    else if c0 ≤ 0xdf then
      match rest with
      | c1 :: _ =>
        if 0x80 ≤ c1 ∧ c1 ≤ 0xbf then ((c0 - 0xc0) * 64 + (c1 - 0x80), 2)
        else (0xfffd, 1)
      | [] => (0xfffd, 1)
    else if c0 ≤ 0xef then
      match rest with
      | c1 :: c2 :: _ =>
        if (if c0 = 0xe0 then 0xa0 else 0x80) ≤ c1 ∧ c1 ≤ (if c0 = 0xed then 0x9f else 0xbf)
            ∧ 0x80 ≤ c2 ∧ c2 ≤ 0xbf then
          ((c0 - 0xe0) * 4096 + (c1 - 0x80) * 64 + (c2 - 0x80), 3)
        else (0xfffd, 1)
      | _ => (0xfffd, 1)
    else if c0 ≤ 0xf4 then
      match rest with
      | c1 :: c2 :: c3 :: _ =>
        if (if c0 = 0xf0 then 0x90 else 0x80) ≤ c1 ∧ c1 ≤ (if c0 = 0xf4 then 0x8f else 0xbf)
            ∧ 0x80 ≤ c2 ∧ c2 ≤ 0xbf ∧ 0x80 ≤ c3 ∧ c3 ≤ 0xbf then
          ((c0 - 0xf0) * 262144 + (c1 - 0x80) * 4096 + (c2 - 0x80) * 64 + (c3 - 0x80), 4)
        else (0xfffd, 1)
      | _ => (0xfffd, 1)
    else (0xfffd, 1)

theorem utf8Decode1_width_pos (c0 : Nat) (rest : List Nat) :
    1 ≤ (utf8Decode1 (c0 :: rest)).2 := by
  unfold utf8Decode1
  repeat' split
  all_goals simp_all

/-- `strconv.IsPrint`, with the ASCII range exact (`0x20..0x7e`) and
printability of non-ASCII runes delegated to the oracle `ip`
(Go consults its Unicode tables there; every concrete claim below is
decided on ASCII input, where the oracle is never consulted). -/
def isPrintGo (ip : Nat → Bool) (r : Nat) : Bool :=
  if r < 0x80 then decide (0x20 ≤ r ∧ r ≤ 0x7e) else ip r

/-- `appendEscapedRune` of `strconv.Quote` (Go 1.17): quote and
backslash always backslash-escaped; printable runes literal (their
source bytes); `\a`..`\r` letter escapes; other runes below space, and
DEL, as `\xHH`; remaining non-printable runes as `\uHHHH`/`\UHHHHHHHH`. -/
def escapeRune (ip : Nat → Bool) (r : Nat) (src : List Nat) : List Nat :=
  if r = 0x22 ∨ r = 0x5c then [0x5c, r]
  else if isPrintGo ip r then src
  else if r = 0x07 then [0x5c, 0x61]
  else if r = 0x08 then [0x5c, 0x62]
  else if r = 0x09 then [0x5c, 0x74]
  else if r = 0x0a then [0x5c, 0x6e]
  else if r = 0x0b then [0x5c, 0x76]
  else if r = 0x0c then [0x5c, 0x66]
  else if r = 0x0d then [0x5c, 0x72]
  else if r < 0x20 ∨ r = 0x7f then [0x5c, 0x78] ++ hex2 r
  else if r < 0x10000 then [0x5c, 0x75] ++ hex4 r
  else [0x5c, 0x55] ++ hex8 r

/-- The body of `strconv.Quote` as `%q` runs it on a byte string (the
wrapping quotes are added in `bytesToString`): decode one rune at a
time; an invalid byte — `RuneError` with width 1 — becomes `\xHH` of the
source byte, anything else is escaped per `escapeRune`. -/
def quoteCore (ip : Nat → Bool) : List Nat → List Nat
  | [] => []
  | c0 :: rest =>
    let rw := utf8Decode1 (c0 :: rest)
    have hw : 1 ≤ rw.2 := utf8Decode1_width_pos c0 rest
    if rw.1 = 0xfffd ∧ rw.2 = 1 then
      (0x5c :: 0x78 :: hex2 c0) ++ quoteCore ip rest
    else
      escapeRune ip rw.1 ((c0 :: rest).take rw.2) ++ quoteCore ip ((c0 :: rest).drop rw.2)
termination_by b => b.length
decreasing_by
  · simp only [List.length_cons]; omega
  · simp only [List.length_drop, List.length_cons]
    exact Nat.sub_lt (Nat.succ_pos _) hw

/-- `strings.NewReplacer("\n", "\\x0a", "\r", "\\x0d", "\\\"", "\"", "\"", "").Replace`:
left-to-right scan where, at each position, the first pattern in
argument order that matches is replaced, and scanning continues after
the match (the replacement text is not rescanned). -/
def goReplacer : List Nat → List Nat
  | [] => []
  | 10 :: rest => [0x5c, 0x78, 0x30, 0x61] ++ goReplacer rest
  | 13 :: rest => [0x5c, 0x78, 0x30, 0x64] ++ goReplacer rest
  | 92 :: 34 :: rest => 34 :: goReplacer rest
  | 34 :: rest => goReplacer rest
  | c :: rest => c :: goReplacer rest

/-- `bytesToString`: the `%q` form (quotes included) run through the
replacer. -/
def bytesToString (ip : Nat → Bool) (b : List Nat) : List Nat :=
  goReplacer (0x22 :: (quoteCore ip b ++ [0x22]))

/-- The character class `[a-z0-9]` of `replaceRE`. -/
def isLowerAlnum (c : Nat) : Bool := (48 ≤ c && c ≤ 57) || (97 ≤ c && c ≤ 122)

/-- One hexadecimal digit as `strconv.ParseUint(·, 16, ·)` reads it
(digits, lowercase and uppercase letters). -/
def hexVal (c : Nat) : Option Nat :=
  if 48 ≤ c ∧ c ≤ 57 then some (c - 48)
  else if 97 ≤ c ∧ c ≤ 102 then some (c - 87)
  else if 65 ≤ c ∧ c ≤ 70 then some (c - 55)
  else none

/-- `strconv.ParseUint(string(b[2:]), 16, 8)` with the error discarded:
a two-character hex number, or 0 when either character fails to parse
(`stringToBytes` ignores the error and uses the zero value). -/
def parseHexByte (c1 c2 : Nat) : Nat :=
  match hexVal c1, hexVal c2 with
  | some h1, some h2 => 16 * h1 + h2
  | _, _ => 0

/-- `stringToBytes`: `replaceRE.ReplaceAllFunc` — scan left to right for
``\x`` followed by exactly two `[a-z0-9]` characters; each match is
replaced by its parsed byte; everything else passes through. -/
def stringToBytes : List Nat → List Nat
  | [] => []
  | 92 :: 120 :: c1 :: c2 :: s2 =>
    if isLowerAlnum c1 && isLowerAlnum c2 then parseHexByte c1 c2 :: stringToBytes s2
    else 92 :: stringToBytes (120 :: c1 :: c2 :: s2)
  | c :: rest => c :: stringToBytes rest
termination_by s => s.length
decreasing_by
  all_goals simp only [List.length_cons]
  all_goals omega

/-- The byte strings on which encode-then-decode is the identity,
chunk by chunk along the quoting loop: invalid UTF-8 bytes (escaped
`\xHH`, decoded back), the double quote (escaped `\"`, replaced back to
`"`), printable runes other than the backslash (copied literally), and
the control bytes that `%q` escapes as `\xHH` (below 0x20 but outside
0x07..0x0d, or DEL 0x7f). -/
def encodeSafe (ip : Nat → Bool) : List Nat → Bool
  | [] => true
  | c0 :: rest =>
    let rw := utf8Decode1 (c0 :: rest)
    have hw : 1 ≤ rw.2 := utf8Decode1_width_pos c0 rest
    if rw.1 = 0xfffd ∧ rw.2 = 1 then encodeSafe ip rest
    else
      (decide (rw.1 = 0x22) || (isPrintGo ip rw.1 && decide (rw.1 ≠ 0x5c))
        || (decide (rw.1 < 0x20) && !(decide (0x07 ≤ rw.1) && decide (rw.1 ≤ 0x0d)))
        || decide (rw.1 = 0x7f))
        && encodeSafe ip ((c0 :: rest).drop rw.2)
termination_by b => b.length
decreasing_by
  · simp only [List.length_cons]; omega
  · simp only [List.length_drop, List.length_cons]
    exact Nat.sub_lt (Nat.succ_pos _) hw

/-- Concrete stand-in for `unicode.IsPrint`, used to instantiate the
printability oracle in closed statements: exact on ASCII (where every
concrete input below is decided); non-ASCII runes at or above 0xa0 are
taken as printable. -/
def isPrintStub (r : Nat) : Bool := (0x20 ≤ r && r ≤ 0x7e) || 0xa0 ≤ r

/-! ## Paginated printer (command/db.go lines 212-267 and its callers)

Rows are abstract (`α`); the printer prefixes the index column, which
does not affect row counts, so a row is modelled as the abstract value
handed to `add`.  A page is the list of rows flushed together by one
`tablePrinter.out` call.  The interactive answer stream is the list of
lines `askContinue` will read; exhausting it models a read error, which
`askContinue` treats as a negative answer. -/

/-- The `switch line` of `askContinue`: affirmative, negative, or
invalid (reprompt). -/
def askAnswer (line : String) : Option Bool :=
  if line = "y" ∨ line = "yes" ∨ line = "Y" ∨ line = "YES" ∨ line = "Yes" ∨ line = ""
    then some true
  else if line = "n" ∨ line = "no" ∨ line = "N" ∨ line = "No" ∨ line = "NO"
    then some false
  else none

/-- `askContinue`: read lines until one is affirmative or negative;
anything else prints "Invalid input" and reprompts; a read error returns
false. -/
def askContinue : List String → Bool × List String
  | [] => (false, [])
  | l :: rest =>
    match askAnswer l with
    | some b => (b, rest)
    | none => askContinue rest

/-- `askContinueSize` (command/db.go line 154). -/
def askContinueSize : Nat := 32

/-- The `tablePrinter` state: `total` rows ever added and the rows of
the in-progress page (`tb.Rows`). -/
structure TablePrinter (α : Type) where
  total : Nat
  buf : List α

/-- `tablePrinter.out`: flush the in-progress page unless it is empty;
the result is the list of pages written (zero or one). -/
def tpOut {α} (buf : List α) : List (List α) :=
  if buf.isEmpty then [] else [buf]

/-- `tablePrinter.add`: count and append the row; when the new total is
a positive multiple of `askContinueSize`, flush the page and ask whether
to continue.  Returns the new state, the pages flushed by this call, the
remaining answer stream, and `add`'s boolean result. -/
def tpAdd {α} (t : TablePrinter α) (v : α) (ans : List String) :
    TablePrinter α × List (List α) × List String × Bool :=
  let total := t.total + 1
  let buf := t.buf ++ [v]
  if total % askContinueSize = 0 ∧ askContinueSize ≤ total then
    ((⟨total, []⟩ : TablePrinter α), tpOut buf, (askContinue ans).2, (askContinue ans).1)
  else (⟨total, buf⟩, [], ans, true)

/-- The iteration pattern of `commandListBucket` / `commandListBucketKeys`:
feed each row to `add`; a false result stops the iteration early
(`errExit`).  Returns the final state, the pages flushed by `add`, the
remaining answers, and whether iteration stopped early. -/
def runRows {α} : List α → TablePrinter α → List String →
    TablePrinter α × List (List α) × List String × Bool
  | [], t, ans => (t, [], ans, false)
  | v :: rest, t, ans =>
    let s := tpAdd t v ans
    if s.2.2.2 then
      let s2 := runRows rest s.1 s.2.2.1
      (s2.1, s.2.1 ++ s2.2.1, s2.2.2.1, s2.2.2.2)
    else (s.1, s.2.1, s.2.2.1, true)

/-- A whole listing command around the printer: run every row from the
fresh printer, then call `tl.out(ctx)` once more (both on normal end and
after `errExit`).  Result: the pages flushed by `add` — the automatic
page flushes — and the pages flushed by the final `out`. -/
def tableRun {α} (rows : List α) (ans : List String) :
    List (List α) × List (List α) :=
  let s := runRows rows ⟨0, []⟩ ans
  (s.2.1, tpOut s.1.buf)

/-! ## The store capability and the copy-bucket wiring (command/db.go)

The collaborator store (spec §6): ordered, named containers of ordered
key-value byte pairs.  It is modelled as an association list in
iteration order; `Put` upserts in place, creation appends. -/

/-- A Go byte string. -/
abbrev Bytes := List Nat

/-- The store: bucket name ↦ entries, in iteration order. -/
abbrev Store := List (Bytes × List (Bytes × Bytes))

/-- `Tx.Bucket`: the named bucket's entries, or `none` (Go `nil`). -/
def lookupBucket (st : Store) (name : Bytes) : Option (List (Bytes × Bytes)) :=
  match st with
  | [] => none
  | (n, b) :: rest => if n = name then some b else lookupBucket rest name

/-- `Bucket.Put`: upsert a key. -/
def putEntry (entries : List (Bytes × Bytes)) (k v : Bytes) : List (Bytes × Bytes) :=
  match entries with
  | [] => [(k, v)]
  | (k2, v2) :: rest => if k2 = k then (k, v) :: rest else (k2, v2) :: putEntry rest k v

/-- `Bucket.Delete`: remove a key; missing keys are a no-op. -/
def deleteKey (entries : List (Bytes × Bytes)) (k : Bytes) : List (Bytes × Bytes) :=
  entries.filter (fun e => decide (e.1 ≠ k))

/-- Replace the entries of the named bucket. -/
def setBucket (st : Store) (name : Bytes) (b : List (Bytes × Bytes)) : Store :=
  st.map (fun e => if e.1 = name then (name, b) else e)

/-- `Tx.CreateBucketIfNotExists`. -/
def createBucketIfNotExists (st : Store) (name : Bytes) : Store :=
  if (lookupBucket st name).isSome then st else st ++ [(name, [])]

/-- `Tx.DeleteBucket`: fails (`ErrBucketNotFound`) when the bucket does
not exist, which aborts — rolls back — the whole update transaction. -/
def deleteBucket (st : Store) (name : Bytes) : Except String Store :=
  if (lookupBucket st name).isSome then
    .ok (st.filter (fun e => decide (e.1 ≠ name)))
  else .error "bucket not found"

/-- `commandCopyBucket` (db.go lines 361-376) on `args = [dst, src]`:
missing source is a silent no-op success; otherwise create the
destination if absent and `Put` every source entry into it. -/
def commandCopyBucket (st : Store) (dst src : Bytes) : Except String Store :=
  match lookupBucket st (stringToBytes src) with
  | none => .ok st
  | some entries =>
    let st2 := createBucketIfNotExists st (stringToBytes dst)
    match lookupBucket st2 (stringToBytes dst) with
    | none => .error "unreachable"
    | some dstEntries =>
      .ok (setBucket st2 (stringToBytes dst)
        (entries.foldl (fun acc e => putEntry acc e.1 e.2) dstEntries))

/-- The token `"key"` as bytes. -/
def keyToken : Bytes := [107, 101, 121]

/-- `commandRemove` (db.go lines 378-408): mode `key` deletes the listed
keys from one bucket (missing bucket: silent success); any other first
token is treated as mode `bucket` and each name in `args[1:]` is
deleted, where `Tx.DeleteBucket` of a missing bucket errors and aborts
the update.  (The `[]` case is unreachable: every registered validation
chain requires at least two arguments.) -/
def commandRemove (st : Store) (args : List Bytes) : Except String Store :=
  match args with
  | [] => .error "unreachable"
  | a0 :: rest =>
    if a0 = keyToken then
      match rest with
      | bucket :: k0 :: keys =>
        match lookupBucket st (stringToBytes bucket) with
        | none => .ok st
        | some entries =>
          .ok (setBucket st (stringToBytes bucket)
            ((k0 :: keys).foldl (fun acc k => deleteKey acc (stringToBytes k)) entries))
      | _ => .error "remove a key must provides bucket and key"
    else
      match rest with
      | [] => .error "remove a bucket must provides bucket name"
      | _ => rest.foldlM (fun acc v => deleteBucket acc (stringToBytes v)) st

/-- The executor the `copy-bucket` registration actually wires up in
`NewRegisterWithDB` (db.go lines 56-63): the struct literal sets
`executor: commandRemove`, not `commandCopyBucket`. -/
def copyBucketRegisteredExecutor (st : Store) (args : List Bytes) : Except String Store :=
  commandRemove st args

/-! ## Lemmas about the history compaction -/

theorem findPos_of_not_mem {lines : List String} {t : String} (h : t ∉ lines) :
    findPos lines t = -1 := by
  induction lines with
  | nil => rfl
  | cons l ls ih =>
    simp only [List.mem_cons, not_or] at h
    have hl : ¬ l = t := fun he => h.1 he.symm
    simp only [findPos, if_neg hl, ih h.2]
    norm_num

theorem findPos_of_mem {lines : List String} {t : String} (h : t ∈ lines) :
    findPos lines t = lines.indexOf t := by
  induction lines with
  | nil => simp at h
  | cons l ls ih =>
    by_cases hl : l = t
    · simp [findPos, hl, List.indexOf_cons_self]
    · have ht : t ∈ ls := by
        rcases List.mem_cons.mp h with h1 | h1
        · exact absurd h1.symm hl
        · exact h1
      have hnn : (0 : Int) ≤ findPos ls t := by
        rw [ih ht]; exact Int.natCast_nonneg _
      simp only [findPos, if_neg hl]
      rw [if_neg (by omega), List.indexOf_cons_ne _ hl, ih ht]
      push_cast
      ring

theorem writeLines_of_le (maxLine : Nat) :
    ∀ (count : Nat) (ls : List String), count ≤ maxLine →
      writeLines maxLine count ls = ls := by
  intro count ls
  induction ls generalizing count with
  | nil => intro _; simp [writeLines]
  | cons l ls ih =>
    intro h
    rw [writeLines, if_neg (by omega), ih count h]

theorem writeLines_eq_drop (maxLine : Nat) :
    ∀ ls : List String, writeLines maxLine ls.length ls = ls.drop (ls.length - maxLine) := by
  intro ls
  induction ls with
  | nil => simp [writeLines]
  | cons l ls ih =>
    by_cases h : ls.length + 1 > maxLine
    · rw [List.length_cons, writeLines, if_pos h]
      simp only [Nat.add_sub_cancel]
      rw [ih]
      have he : ls.length + 1 - maxLine = (ls.length - maxLine) + 1 := by omega
      rw [he, List.drop_succ_cons]
    · rw [List.length_cons, writeLines, if_neg h,
        writeLines_of_le maxLine _ _ (by omega)]
      have he : ls.length + 1 - maxLine = 0 := by omega
      rw [he, List.drop_zero]

/-! ## Claims about the history compaction, keys parsing and tokenizer -/

/-- C2 (counterexample): the fold of `keepMaxLine` does not collapse each
distinct line to a single occurrence — a line whose earlier occurrence is
at index 0 is appended again (`["a", "a"]` stays `["a", "a"]`) — and it
does not preserve the relative order of the other lines: on
`["x", "a", "b", "c", "a"]` the re-entered `"a"` is swapped with the last
line `"c"`, producing `["x", "c", "b", "a"]` instead of the claimed
`["x", "b", "c", "a"]`. -/
theorem C2_fold_counterexample :
    (keepMaxLineFold ["a", "a"]).count "a" = 2 ∧
    keepMaxLineFold ["x", "a", "b", "c", "a"] = ["x", "c", "b", "a"] := by
  constructor <;> rfl

/-- C2 (amended): on a repeated line the fold of `keepMaxLine` behaves as
follows — a line absent from the accumulated list, or whose first
occurrence is at index 0, is appended (so duplicates of the front line
are retained); a line whose first occurrence is at a positive index `i`
is swapped with the current last element: the line moves to the last
slot and the displaced last line takes index `i` (relative order of the
other lines is not preserved). -/
theorem C2_fold_amended (lines : List String) (t : String) :
    (t ∉ lines → foldStep lines t = lines ++ [t]) ∧
    (t ∈ lines → lines.indexOf t = 0 → foldStep lines t = lines ++ [t]) ∧
    (t ∈ lines → 0 < lines.indexOf t →
      foldStep lines t =
        (lines.set (lines.length - 1) t).set (lines.indexOf t)
          (lines.getD (lines.length - 1) "")) := by
  refine ⟨fun h => ?_, fun h h0 => ?_, fun h hpos => ?_⟩
  · simp [foldStep, findPos_of_not_mem h]
  · simp [foldStep, findPos_of_mem h, h0]
  · have hlt : lines.indexOf t < lines.length := List.indexOf_lt_length.mpr h
    have hget : lines.getD (lines.indexOf t) "" = t := by
      rw [List.getD_eq_get lines "" hlt, List.indexOf_get]
    simp only [foldStep, findPos_of_mem h]
    rw [if_pos (by exact_mod_cast hpos)]
    simp only [Int.toNat_natCast, hget]

/-- C2 (witness for the amended theorem): concrete instances — a line
first occurring at index 1 of `["x", "a", "b"]` is swapped with the last
line, and an absent line is appended. -/
theorem C2_fold_amended_witness :
    foldStep ["x", "a", "b"] "a" = ["x", "b", "a"] ∧
    foldStep ["x", "a", "b"] "z" = ["x", "a", "b", "z"] := by
  constructor
  · have h := (C2_fold_amended ["x", "a", "b"] "a").2.2 (by decide) (by decide)
    simpa using h
  · have h := (C2_fold_amended ["x", "a", "b"] "z").1 (by decide)
    simpa using h

/-- C7: the write phase of `keepMaxLine` emits at most `maxLine` entries,
and when the folded sequence exceeds the budget the entries dropped are
exactly the front-most (oldest) ones: the output is the folded sequence
with its first `length - maxLine` entries removed. -/
theorem C7_keepMaxLine_cap_drops_oldest (input : List String) (maxLine : Nat) :
    (keepMaxLine input maxLine).length ≤ maxLine ∧
    keepMaxLine input maxLine =
      (keepMaxLineFold input).drop ((keepMaxLineFold input).length - maxLine) := by
  have hk : keepMaxLine input maxLine =
      (keepMaxLineFold input).drop ((keepMaxLineFold input).length - maxLine) := by
    simpa [keepMaxLine] using writeLines_eq_drop maxLine (keepMaxLineFold input)
  refine ⟨?_, hk⟩
  rw [hk]
  simp only [List.length_drop]
  omega

/-- C8: `keepMaxLine` on the input lines `[a, b, a, c]` (three distinct
lines, `a` re-entered) with maximum entry count 2 writes exactly
`[a, c]`. -/
theorem C8_keepMaxLine_example (a b c : String)
    (hab : a ≠ b) (hac : a ≠ c) (hbc : b ≠ c) :
    keepMaxLine [a, b, a, c] 2 = [a, c] := by
  have hba : ¬ a = b := hab
  have h1 : keepMaxLineFold [a, b, a, c] = [a, b, a, c] := by
    simp [keepMaxLineFold, List.foldl, foldStep, findPos, hab, hac, hbc]
  simp [keepMaxLine, h1, writeLines]

/-- C8 (witness): the concrete instance with lines "a", "b", "c". -/
theorem C8_keepMaxLine_example_witness :
    keepMaxLine ["a", "b", "a", "c"] 2 = ["a", "c"] :=
  C8_keepMaxLine_example "a" "b" "c" (by decide) (by decide) (by decide)

/-- C9: the extra tokens of the `keys` command are order-independent —
one extra token equal to `withvalue` enables value display with no
pattern; one extra token different from it is the pattern with value
display off; with two extra tokens of which exactly one is `withvalue`,
that one is the flag and the other is the pattern. -/
theorem C9_keys_args_order_independent (b p : String) (hp : p ≠ "withvalue") :
    listBucketKeysArgs [b, "withvalue"] = (true, "") ∧
    listBucketKeysArgs [b, p] = (false, p) ∧
    listBucketKeysArgs [b, "withvalue", p] = (true, p) ∧
    listBucketKeysArgs [b, p, "withvalue"] = (true, p) :=
  ⟨by simp [listBucketKeysArgs], by simp [listBucketKeysArgs, hp],
   by simp [listBucketKeysArgs], by simp [listBucketKeysArgs, hp]⟩

/-- C9 (witness): concrete instance with bucket "mybucket" and pattern "k1". -/
theorem C9_keys_args_witness :
    listBucketKeysArgs ["mybucket", "withvalue"] = (true, "") ∧
    listBucketKeysArgs ["mybucket", "k1"] = (false, "k1") ∧
    listBucketKeysArgs ["mybucket", "withvalue", "k1"] = (true, "k1") ∧
    listBucketKeysArgs ["mybucket", "k1", "withvalue"] = (true, "k1") :=
  C9_keys_args_order_independent "mybucket" "k1" (by decide)

/-- C10: a line consisting of a single space passes the session loop's
blank-line filter (which rejects only the exactly-empty string), yet
`strings.Fields` of it is the empty list — so `Execute`'s unconditional
read of `fullargs[0]` indexes out of range on that line. -/
theorem C10_whitespace_line_reaches_empty_fields :
    nextAcceptsLine [32] = true ∧ goFields [32] = [] := by
  constructor
  · rfl
  · rw [goFields]
    norm_num [isGoSpace, goFields]

/-! ## Lemmas about the paginated printer -/

theorem runRows_no_flush {α} (rows : List α) :
    ∀ (total : Nat) (buf : List α) (ans : List String),
      total % 32 = buf.length → buf.length + rows.length ≤ 31 →
      runRows rows ⟨total, buf⟩ ans = (⟨total + rows.length, buf ++ rows⟩, [], ans, false) := by
  induction rows with
  | nil => intro total buf ans ht h; simp [runRows]
  | cons v rest ih =>
    intro total buf ans ht h
    simp only [List.length_cons] at h
    have hcond : ¬((total + 1) % askContinueSize = 0 ∧ askContinueSize ≤ total + 1) := by
      simp only [askContinueSize, not_and]
      omega
    have hadd : tpAdd (⟨total, buf⟩ : TablePrinter α) v ans =
        (⟨total + 1, buf ++ [v]⟩, [], ans, true) := by
      simp [tpAdd, hcond]
    have hrec := ih (total + 1) (buf ++ [v]) ans
      (by simp only [List.length_append, List.length_singleton]; omega)
      (by simp only [List.length_append, List.length_singleton]; omega)
    simp only [runRows, hadd, hrec, if_true, List.nil_append, List.append_assoc,
      List.singleton_append, List.length_append, List.length_singleton, List.length_cons]
    have ht2 : total + 1 + rest.length = total + (rest.length + 1) := by omega
    rw [ht2]

theorem runRows_flush_continue {α} (rows : List α) :
    ∀ (total : Nat) (buf : List α) (ans ans2 : List String),
      total % 32 = buf.length → buf.length < 32 →
      32 ≤ buf.length + rows.length →
      askContinue ans = (true, ans2) →
      runRows rows ⟨total, buf⟩ ans =
        ((runRows (rows.drop (32 - buf.length))
            ⟨total + (32 - buf.length), []⟩ ans2).1,
         (buf ++ rows.take (32 - buf.length)) ::
           (runRows (rows.drop (32 - buf.length))
             ⟨total + (32 - buf.length), []⟩ ans2).2.1,
         (runRows (rows.drop (32 - buf.length))
           ⟨total + (32 - buf.length), []⟩ ans2).2.2.1,
         (runRows (rows.drop (32 - buf.length))
           ⟨total + (32 - buf.length), []⟩ ans2).2.2.2) := by
  induction rows with
  | nil =>
    intro total buf ans ans2 ht hb hlen hask
    simp only [List.length_nil, Nat.add_zero] at hlen
    omega
  | cons v rest ih =>
    intro total buf ans ans2 ht hb hlen hask
    by_cases hfull : buf.length = 31
    · have hcond : (total + 1) % askContinueSize = 0 ∧ askContinueSize ≤ total + 1 := by
        simp only [askContinueSize]
        omega
      have hadd : tpAdd (⟨total, buf⟩ : TablePrinter α) v ans =
          (⟨total + 1, []⟩, [buf ++ [v]], ans2, true) := by
        simp [tpAdd, hcond, hask, tpOut]
      have hk : 32 - buf.length = 1 := by omega
      simp only [runRows, hadd, if_true, hk, List.take_cons, List.take_zero,
        List.drop_succ_cons, List.drop_zero]
      simp
    · have hcond : ¬((total + 1) % askContinueSize = 0 ∧ askContinueSize ≤ total + 1) := by
        simp only [askContinueSize, not_and]
        omega
      have hadd : tpAdd (⟨total, buf⟩ : TablePrinter α) v ans =
          (⟨total + 1, buf ++ [v]⟩, [], ans, true) := by
        simp [tpAdd, hcond]
      have hrec := ih (total + 1) (buf ++ [v]) ans ans2
        (by simp only [List.length_append, List.length_singleton]; omega)
        (by simp only [List.length_append, List.length_singleton]; omega)
        (by simp only [List.length_append, List.length_singleton, List.length_cons] at hlen ⊢; omega)
        hask
      have hk : 32 - (buf ++ [v]).length = 32 - buf.length - 1 := by
        simp only [List.length_append, List.length_singleton]; omega
      have hk1 : 1 ≤ 32 - buf.length := by omega
      have htake : (buf ++ [v]) ++ rest.take (32 - buf.length - 1) =
          buf ++ (v :: rest).take (32 - buf.length) := by
        obtain ⟨m, hm⟩ : ∃ m, 32 - buf.length = m + 1 := ⟨32 - buf.length - 1, by omega⟩
        simp [hm, List.append_assoc]
      have hdrop : rest.drop (32 - buf.length - 1) = (v :: rest).drop (32 - buf.length) := by
        obtain ⟨m, hm⟩ : ∃ m, 32 - buf.length = m + 1 := ⟨32 - buf.length - 1, by omega⟩
        simp [hm]
      have htot : total + 1 + (32 - buf.length - 1) = total + (32 - buf.length) := by omega
      simp only [runRows, hadd, if_true, hrec, hk, htake, hdrop, htot, List.nil_append]

theorem runRows_flush_stop {α} (rows : List α) :
    ∀ (total : Nat) (buf : List α) (ans ans2 : List String),
      total % 32 = buf.length → buf.length < 32 →
      32 ≤ buf.length + rows.length →
      askContinue ans = (false, ans2) →
      runRows rows ⟨total, buf⟩ ans =
        (⟨total + (32 - buf.length), []⟩,
         [buf ++ rows.take (32 - buf.length)], ans2, true) := by
  induction rows with
  | nil =>
    intro total buf ans ans2 ht hb hlen hask
    simp only [List.length_nil, Nat.add_zero] at hlen
    omega
  | cons v rest ih =>
    intro total buf ans ans2 ht hb hlen hask
    by_cases hfull : buf.length = 31
    · have hcond : (total + 1) % askContinueSize = 0 ∧ askContinueSize ≤ total + 1 := by
        simp only [askContinueSize]
        omega
      have hadd : tpAdd (⟨total, buf⟩ : TablePrinter α) v ans =
          (⟨total + 1, []⟩, [buf ++ [v]], ans2, false) := by
        simp [tpAdd, hcond, hask, tpOut]
      have hk : 32 - buf.length = 1 := by omega
      simp only [runRows, hadd, hk, List.take_cons, List.take_zero]
      simp
    · have hcond : ¬((total + 1) % askContinueSize = 0 ∧ askContinueSize ≤ total + 1) := by
        simp only [askContinueSize, not_and]
        omega
      have hadd : tpAdd (⟨total, buf⟩ : TablePrinter α) v ans =
          (⟨total + 1, buf ++ [v]⟩, [], ans, true) := by
        simp [tpAdd, hcond]
      have hrec := ih (total + 1) (buf ++ [v]) ans ans2
        (by simp only [List.length_append, List.length_singleton]; omega)
        (by simp only [List.length_append, List.length_singleton]; omega)
        (by simp only [List.length_append, List.length_singleton, List.length_cons] at hlen ⊢; omega)
        hask
      have htake : (buf ++ [v]) ++ rest.take (32 - (buf ++ [v]).length) =
          buf ++ (v :: rest).take (32 - buf.length) := by
        obtain ⟨m, hm⟩ : ∃ m, 32 - buf.length = m + 1 := ⟨32 - buf.length - 1, by omega⟩
        have hm2 : 32 - (buf ++ [v]).length = m := by
          simp only [List.length_append, List.length_singleton]; omega
        simp [hm, hm2, List.append_assoc]
        omega
      have htot : total + 1 + (32 - (buf ++ [v]).length) = total + (32 - buf.length) := by
        simp only [List.length_append, List.length_singleton]; omega
      simp only [runRows, hadd, if_true, hrec, htake, htot, List.nil_append]

/-- C6: the paginated printer flushes a page and prompts at every 32nd
accumulated row; with 65 rows and affirmative answers there are exactly
two automatic 32-row page flushes before the final flush of the last
row; answering `n` at the first prompt prints exactly the first 32 rows
and nothing more; a run that never reaches a page boundary ends with one
final flush, unless there were zero rows; an invalid answer merely
reprompts, and the affirmative answers are exactly
y/yes/Y/YES/Yes/empty while n/no/N/No/NO are negative. -/
theorem C6_pagination {α : Type} (rows : List α) :
    (rows.length = 65 →
      tableRun rows ["y", "y"] =
        ([rows.take 32, (rows.drop 32).take 32], [rows.drop 64])) ∧
    (rows.length = 65 →
      tableRun rows ["n"] = ([rows.take 32], [])) ∧
    (rows.length < 32 →
      tableRun rows [] = ([], if rows.isEmpty then [] else [rows])) ∧
    (∀ (s : String) (ans : List String), askAnswer s = none →
      askContinue (s :: ans) = askContinue ans) ∧
    (askAnswer "y" = some true ∧ askAnswer "yes" = some true ∧
     askAnswer "Y" = some true ∧ askAnswer "YES" = some true ∧
     askAnswer "Yes" = some true ∧ askAnswer "" = some true ∧
     askAnswer "n" = some false ∧ askAnswer "no" = some false ∧
     askAnswer "N" = some false ∧ askAnswer "No" = some false ∧
     askAnswer "NO" = some false) := by
  refine ⟨?_, ?_, ?_, ?_, ?_⟩
  · intro h
    have hask1 : askContinue ["y", "y"] = (true, ["y"]) := by
      simp [askContinue, askAnswer]
    have hask2 : askContinue ["y"] = (true, []) := by
      simp [askContinue, askAnswer]
    have h1 := runRows_flush_continue rows 0 [] ["y", "y"] ["y"]
      (by simp) (by simp) (by simp [h]) hask1
    have h2 := runRows_flush_continue (rows.drop 32) 32 [] ["y"] []
      (by simp) (by simp) (by simp [h]) hask2
    have h3 := runRows_no_flush (rows.drop 64) 64 [] []
      (by simp) (by simp [h])
    simp only [List.length_nil, Nat.sub_zero, Nat.zero_add, List.nil_append] at h1 h2 h3
    rw [List.drop_drop] at h2
    norm_num at h1 h2
    rw [h3] at h2
    rw [h2] at h1
    have hne : (rows.drop 64).isEmpty = false := by
      have : (rows.drop 64).length = 1 := by simp [h]
      cases he : rows.drop 64 with
      | nil => rw [he] at this; simp at this
      | cons x xs => simp
    simp [tableRun, h1, tpOut, hne]
  · intro h
    have hask1 : askContinue ["n"] = (false, []) := by
      simp [askContinue, askAnswer]
    have h1 := runRows_flush_stop rows 0 [] ["n"] []
      (by simp) (by simp) (by simp [h]) hask1
    simp only [List.length_nil, Nat.sub_zero, Nat.zero_add, List.nil_append] at h1
    simp [tableRun, h1, tpOut]
  · intro h
    have h1 := runRows_no_flush rows 0 [] [] (by simp) (by simp; omega)
    simp only [List.nil_append, Nat.zero_add] at h1
    have h2 : tableRun rows [] = ([], tpOut rows) := by
      simp [tableRun, h1]
    rw [h2]
    simp [tpOut]
  · intro s ans hs
    simp [askContinue, hs]
  · refine ⟨?_, ?_, ?_, ?_, ?_, ?_, ?_, ?_, ?_, ?_, ?_⟩ <;> rfl

/-- C6 (witness): the 65-row scenarios instantiated with the rows
`0, …, 64`. -/
theorem C6_pagination_witness :
    tableRun (List.range 65) ["y", "y"] =
      ([(List.range 65).take 32, ((List.range 65).drop 32).take 32],
       [(List.range 65).drop 64]) ∧
    tableRun (List.range 65) ["n"] = ([(List.range 65).take 32], []) := by
  have h := C6_pagination (List.range 65)
  exact ⟨h.1 (by simp), h.2.1 (by simp)⟩


/-! ## Claim about the copy-bucket wiring -/

/-- C1: `copy-bucket` does not copy.  Its registration wires
`executor: commandRemove` (db.go line 62), so on the store `{s: {k: v}}`
the command `copy-bucket d s` deletes bucket `s` and copies nothing,
and on a store without the source it fails with a bucket-not-found
error instead of the claimed silent no-op success.  The unused
`commandCopyBucket` — evaluated on the same inputs — shows the intended
behavior the claim describes. -/
theorem C1_copy_bucket_wired_to_remove :
    copyBucketRegisteredExecutor [([115], [([107], [118])])] [[100], [115]] =
      .ok [] ∧
    commandCopyBucket [([115], [([107], [118])])] [100] [115] =
      .ok [([115], [([107], [118])]), ([100], [([107], [118])])] ∧
    copyBucketRegisteredExecutor [] [[100], [115]] = .error "bucket not found" ∧
    commandCopyBucket [] [100] [115] = .ok [] := by
  have hs : stringToBytes [115] = [115] := by simp [stringToBytes]
  have hd : stringToBytes [100] = [100] := by simp [stringToBytes]
  refine ⟨?_, ?_, ?_, ?_⟩
  · simp [copyBucketRegisteredExecutor, commandRemove, keyToken, hs, hd,
      deleteBucket, lookupBucket, List.foldlM]
  · simp [commandCopyBucket, hs, hd, lookupBucket, createBucketIfNotExists,
      setBucket, putEntry, List.foldl]
  · simp [copyBucketRegisteredExecutor, commandRemove, keyToken, hs, hd,
      deleteBucket, lookupBucket, List.foldlM]
  · simp [commandCopyBucket, hs, lookupBucket]


/-! ## Lemmas about the codec -/

theorem hexDigitChr_ge (n : Nat) : 48 ≤ hexDigitChr n := by
  unfold hexDigitChr; split <;> omega

theorem hexDigitChr_ne_meta (n : Nat) :
    hexDigitChr n ≠ 10 ∧ hexDigitChr n ≠ 13 ∧ hexDigitChr n ≠ 34 ∧ hexDigitChr n ≠ 92 := by
  unfold hexDigitChr; split <;> omega

theorem isLowerAlnum_hexDigitChr : ∀ n : Nat, n < 16 → isLowerAlnum (hexDigitChr n) = true := by
  decide

theorem hexVal_hexDigitChr {a : Nat} (ha : a < 16) : hexVal (hexDigitChr a) = some a := by
  unfold hexVal hexDigitChr
  repeat' split
  all_goals first
    | (simp only [Option.some.injEq]; omega)
    | (exfalso; omega)

theorem parseHexByte_hexDigitChr {a b : Nat} (ha : a < 16) (hb : b < 16) :
    parseHexByte (hexDigitChr a) (hexDigitChr b) = 16 * a + b := by
  unfold parseHexByte
  rw [hexVal_hexDigitChr ha, hexVal_hexDigitChr hb]

theorem parseHexByte_hex2 (c : Nat) (hc : c < 256) :
    parseHexByte (hexDigitChr (c / 16 % 16)) (hexDigitChr (c % 16)) = c := by
  rw [parseHexByte_hexDigitChr (by omega) (by omega)]
  omega

theorem gr_pass {c : Nat} (t : List Nat)
    (h10 : c ≠ 10) (h13 : c ≠ 13) (h34 : c ≠ 34) (h92 : c ≠ 92) :
    goReplacer (c :: t) = c :: goReplacer t := by
  rw [goReplacer.eq_def]
  split <;> simp_all

theorem gr_quote (t : List Nat) : goReplacer (92 :: 34 :: t) = 34 :: goReplacer t := by
  rw [goReplacer.eq_def]

theorem gr_92 {x : Nat} (t : List Nat) (hx : x ≠ 34) :
    goReplacer (92 :: x :: t) = 92 :: goReplacer (x :: t) := by
  rw [goReplacer.eq_def]
  split <;> simp_all

theorem gr_list_pass {t : List Nat} (X : List Nat)
    (h : ∀ x ∈ t, x ≠ 10 ∧ x ≠ 13 ∧ x ≠ 34 ∧ x ≠ 92) :
    goReplacer (t ++ X) = t ++ goReplacer X := by
  induction t with
  | nil => simp
  | cons c t ih =>
    have hc := h c (by simp)
    rw [List.cons_append, gr_pass _ hc.1 hc.2.1 hc.2.2.1 hc.2.2.2,
      ih (fun x hx => h x (by simp [hx]))]
    rfl

theorem stb_pass {c : Nat} (t : List Nat) (hc : c ≠ 92) :
    stringToBytes (c :: t) = c :: stringToBytes t := by
  rw [stringToBytes.eq_def]
  split <;> simp_all

theorem stb_esc {c1 c2 : Nat} (t : List Nat)
    (h1 : isLowerAlnum c1 = true) (h2 : isLowerAlnum c2 = true) :
    stringToBytes (92 :: 120 :: c1 :: c2 :: t) = parseHexByte c1 c2 :: stringToBytes t := by
  rw [stringToBytes.eq_def]
  simp [h1, h2]

theorem stb_esc_bad {c1 c2 : Nat} (t : List Nat)
    (h : ¬(isLowerAlnum c1 = true ∧ isLowerAlnum c2 = true)) :
    stringToBytes (92 :: 120 :: c1 :: c2 :: t) =
      92 :: stringToBytes (120 :: c1 :: c2 :: t) := by
  rw [stringToBytes.eq_def]
  simp [Bool.and_eq_true, h]

theorem stb_list_pass {t : List Nat} (Z : List Nat) (h : ∀ x ∈ t, x ≠ 92) :
    stringToBytes (t ++ Z) = t ++ stringToBytes Z := by
  induction t with
  | nil => simp
  | cons c t ih =>
    rw [List.cons_append, stb_pass _ (h c (by simp)), ih (fun x hx => h x (by simp [hx]))]
    rfl


theorem utf8Decode1_cases (c0 : Nat) (rest : List Nat) :
    ((utf8Decode1 (c0 :: rest)).1 = 0xfffd ∧ (utf8Decode1 (c0 :: rest)).2 = 1) ∨
    ((utf8Decode1 (c0 :: rest)).2 = 1 ∧ (utf8Decode1 (c0 :: rest)).1 = c0 ∧ c0 < 0x80) ∨
    (2 ≤ (utf8Decode1 (c0 :: rest)).2 ∧ 0x80 ≤ (utf8Decode1 (c0 :: rest)).1 ∧
      ∀ x ∈ (c0 :: rest).take (utf8Decode1 (c0 :: rest)).2, 0x80 ≤ x) := by
  unfold utf8Decode1
  repeat' split
  all_goals simp_all
  all_goals omega

theorem qc_nil (ip : Nat → Bool) : quoteCore ip [] = [] := by
  simp [quoteCore]

theorem qc_cons_invalid (ip : Nat → Bool) (c0 : Nat) (rest : List Nat)
    (h : (utf8Decode1 (c0 :: rest)).1 = 0xfffd ∧ (utf8Decode1 (c0 :: rest)).2 = 1) :
    quoteCore ip (c0 :: rest) = (92 :: 120 :: hex2 c0) ++ quoteCore ip rest := by
  rw [quoteCore.eq_def]
  simp [h]

theorem qc_cons_valid (ip : Nat → Bool) (c0 : Nat) (rest : List Nat)
    (h : ¬((utf8Decode1 (c0 :: rest)).1 = 0xfffd ∧ (utf8Decode1 (c0 :: rest)).2 = 1)) :
    quoteCore ip (c0 :: rest) =
      escapeRune ip (utf8Decode1 (c0 :: rest)).1
        ((c0 :: rest).take (utf8Decode1 (c0 :: rest)).2) ++
      quoteCore ip ((c0 :: rest).drop (utf8Decode1 (c0 :: rest)).2) := by
  rw [quoteCore.eq_def]
  simp [h]

theorem es_nil (ip : Nat → Bool) : encodeSafe ip [] = true := by
  simp [encodeSafe]

theorem es_cons_invalid (ip : Nat → Bool) (c0 : Nat) (rest : List Nat)
    (h : (utf8Decode1 (c0 :: rest)).1 = 0xfffd ∧ (utf8Decode1 (c0 :: rest)).2 = 1) :
    encodeSafe ip (c0 :: rest) = encodeSafe ip rest := by
  rw [encodeSafe.eq_def]
  simp [h]

theorem es_cons_valid (ip : Nat → Bool) (c0 : Nat) (rest : List Nat)
    (h : ¬((utf8Decode1 (c0 :: rest)).1 = 0xfffd ∧ (utf8Decode1 (c0 :: rest)).2 = 1)) :
    encodeSafe ip (c0 :: rest) =
      ((decide ((utf8Decode1 (c0 :: rest)).1 = 0x22)
        || (isPrintGo ip (utf8Decode1 (c0 :: rest)).1 && decide ((utf8Decode1 (c0 :: rest)).1 ≠ 0x5c))
        || (decide ((utf8Decode1 (c0 :: rest)).1 < 0x20)
            && !(decide (0x07 ≤ (utf8Decode1 (c0 :: rest)).1)
                 && decide ((utf8Decode1 (c0 :: rest)).1 ≤ 0x0d)))
        || decide ((utf8Decode1 (c0 :: rest)).1 = 0x7f))
       && encodeSafe ip ((c0 :: rest).drop (utf8Decode1 (c0 :: rest)).2)) := by
  rw [encodeSafe.eq_def]
  simp [h]

theorem hexDigitChr_ge_32 (n : Nat) : 32 ≤ hexDigitChr n :=
  le_trans (by omega) (hexDigitChr_ge n)

set_option maxHeartbeats 1000000 in
theorem escapeRune_ge_32 (ip : Nat → Bool) (r : Nat) (src : List Nat)
    (hsrc : isPrintGo ip r = true → ∀ y ∈ src, 32 ≤ y) :
    ∀ x ∈ escapeRune ip r src, 32 ≤ x := by
  unfold escapeRune
  by_cases hq : r = 0x22 ∨ r = 0x5c
  · rw [if_pos hq]
    rcases hq with rfl | rfl <;> simp [List.forall_mem_cons]
  · rw [if_neg hq]
    repeat' split
    all_goals first
      | simp [hex2, hex4, hex8, List.forall_mem_cons, hexDigitChr_ge_32]
      | exact hsrc (by assumption)


theorem quoteCore_ge_32 (ip : Nat → Bool) (b : List Nat) : ∀ x ∈ quoteCore ip b, 32 ≤ x := by
  suffices H : ∀ (n : Nat) (b : List Nat), b.length ≤ n → ∀ x ∈ quoteCore ip b, 32 ≤ x from
    H b.length b le_rfl
  intro n
  induction n with
  | zero =>
    intro b hb
    have hbe : b = [] := List.eq_nil_of_length_eq_zero (by omega)
    subst hbe
    simp [qc_nil]
  | succ n ih =>
    intro b hb
    match b with
    | [] => simp [qc_nil]
    | c0 :: rest =>
      simp only [List.length_cons] at hb
      by_cases hinv : (utf8Decode1 (c0 :: rest)).1 = 0xfffd ∧ (utf8Decode1 (c0 :: rest)).2 = 1
      · rw [qc_cons_invalid ip c0 rest hinv]
        intro x hx
        rcases List.mem_append.mp hx with h | h
        · simp only [hex2, List.mem_cons, List.mem_singleton, List.not_mem_nil, or_false] at h
          rcases h with rfl | rfl | rfl | rfl
          · omega
          · omega
          · exact hexDigitChr_ge_32 _
          · exact hexDigitChr_ge_32 _
        · exact ih rest (by omega) x h
      · rw [qc_cons_valid ip c0 rest hinv]
        intro x hx
        rcases List.mem_append.mp hx with h | h
        · refine escapeRune_ge_32 ip _ _ ?_ x h
          intro hp y hy
          rcases utf8Decode1_cases c0 rest with hcase | hcase | hcase
          · exact absurd hcase hinv
          · obtain ⟨hw, hr, hc⟩ := hcase
            rw [hw] at hy
            simp only [List.take_succ_cons, List.take_zero, List.mem_singleton] at hy
            subst hy
            rw [hr] at hp
            unfold isPrintGo at hp
            rw [if_pos hc] at hp
            simp only [decide_eq_true_eq] at hp
            omega
          · exact le_trans (by omega) (hcase.2.2 y hy)
        · have hwpos : 1 ≤ (utf8Decode1 (c0 :: rest)).2 := utf8Decode1_width_pos c0 rest
          exact ih ((c0 :: rest).drop (utf8Decode1 (c0 :: rest)).2)
            (by simp only [List.length_drop, List.length_cons]; omega) x h


theorem goReplacer_ge_32 (s : List Nat) (h : ∀ x ∈ s, 32 ≤ x) :
    ∀ x ∈ goReplacer s, 32 ≤ x := by
  induction s using goReplacer.induct with
  | case1 => simp [goReplacer]
  | case2 rest ih =>
    exact absurd (h 10 (by simp)) (by omega)
  | case3 rest ih =>
    exact absurd (h 13 (by simp)) (by omega)
  | case4 rest ih =>
    rw [gr_quote]
    intro x hx
    rcases List.mem_cons.mp hx with rfl | hx
    · omega
    · exact ih (fun y hy => h y (by simp [hy])) x hx
  | case5 rest ih =>
    rw [goReplacer]
    exact ih fun y hy => h y (by simp [hy])
  | case6 c rest h1 h2 h3 h4 ih =>
    have he : goReplacer (c :: rest) = c :: goReplacer rest := by
      rw [goReplacer.eq_def]
      split <;> simp_all
    rw [he]
    intro x hx
    rcases List.mem_cons.mp hx with rfl | hx
    · exact h _ (by simp)
    · exact ih (fun y hy => h y (by simp [hy])) x hx

theorem bytesToString_ge_32 (ip : Nat → Bool) (b : List Nat) :
    ∀ x ∈ bytesToString ip b, 32 ≤ x := by
  unfold bytesToString
  refine goReplacer_ge_32 _ ?_
  intro x hx
  rcases List.mem_cons.mp hx with rfl | hx
  · omega
  · rcases List.mem_append.mp hx with hx | hx
    · exact quoteCore_ge_32 ip b x hx
    · simp only [List.mem_singleton] at hx
      omega


theorem xchunk_step (c : Nat) (hc : c < 256) (X : List Nat) :
    stringToBytes (goReplacer ((92 :: 120 :: hex2 c) ++ X)) =
      c :: stringToBytes (goReplacer X) := by
  have hh1 := hexDigitChr_ne_meta (c / 16 % 16)
  have hh2 := hexDigitChr_ne_meta (c % 16)
  show stringToBytes (goReplacer
    (92 :: 120 :: hexDigitChr (c / 16 % 16) :: hexDigitChr (c % 16) :: X)) = _
  rw [gr_92 _ (by omega), gr_pass _ (by omega) (by omega) (by omega) (by omega),
    gr_pass _ hh1.1 hh1.2.1 hh1.2.2.1 hh1.2.2.2,
    gr_pass _ hh2.1 hh2.2.1 hh2.2.2.1 hh2.2.2.2,
    stb_esc _ (isLowerAlnum_hexDigitChr _ (by omega)) (isLowerAlnum_hexDigitChr _ (by omega)),
    parseHexByte_hex2 c hc]

set_option maxHeartbeats 1000000 in
theorem roundtrip_aux (ip : Nat → Bool) :
    ∀ (n : Nat) (b : List Nat), b.length ≤ n →
      encodeSafe ip b = true → (∀ x ∈ b, x < 256) →
      ∀ s : List Nat,
        stringToBytes (goReplacer (quoteCore ip b ++ s)) =
          b ++ stringToBytes (goReplacer s) := by
  intro n
  induction n with
  | zero =>
    intro b hb _ _ s
    have hbe : b = [] := List.eq_nil_of_length_eq_zero (by omega)
    subst hbe
    simp [qc_nil]
  | succ n ih =>
    intro b hb hsafe h256 s
    match b with
    | [] => simp [qc_nil]
    | c0 :: rest =>
      simp only [List.length_cons] at hb
      have h256r : ∀ x ∈ rest, x < 256 := fun x hx => h256 x (by simp [hx])
      by_cases hinv : (utf8Decode1 (c0 :: rest)).1 = 0xfffd ∧ (utf8Decode1 (c0 :: rest)).2 = 1
      · rw [es_cons_invalid ip c0 rest hinv] at hsafe
        rw [qc_cons_invalid ip c0 rest hinv, List.append_assoc,
          xchunk_step c0 (h256 c0 (by simp)) _,
          ih rest (by omega) hsafe h256r s]
        rfl
      · rw [es_cons_valid ip c0 rest hinv, Bool.and_eq_true] at hsafe
        obtain ⟨hclass, hsafe2⟩ := hsafe
        rcases utf8Decode1_cases c0 rest with hcase | hcase | hcase
        · exact absurd hcase hinv
        · -- ASCII rune: width 1, rune = c0 < 0x80
          obtain ⟨hw, hr, hlt⟩ := hcase
          rw [hw] at hsafe2
          simp only [List.drop_succ_cons, List.drop_zero] at hsafe2
          rw [hr] at hclass
          simp only [Bool.or_eq_true, Bool.and_eq_true, decide_eq_true_eq] at hclass
          rw [qc_cons_valid ip c0 rest hinv, hw, hr]
          simp only [List.take_succ_cons, List.take_zero, List.drop_succ_cons, List.drop_zero]
          by_cases h34 : c0 = 34
          · subst h34
            have he : escapeRune ip 34 [34] = [92, 34] := by
              unfold escapeRune
              rw [if_pos (Or.inl rfl)]
            rw [he, List.append_assoc]
            show stringToBytes (goReplacer (92 :: 34 :: (quoteCore ip rest ++ s))) = _
            rw [gr_quote, stb_pass _ (by omega), ih rest (by omega) hsafe2 h256r s]
            rfl
          · rcases hclass with ((h | h) | h) | h
            · exact absurd h h34
            · obtain ⟨hp, h92⟩ := h
              have hb0 : 32 ≤ c0 ∧ c0 ≤ 126 := by
                unfold isPrintGo at hp
                rw [if_pos hlt] at hp
                simpa using hp
              have he : escapeRune ip c0 [c0] = [c0] := by
                unfold escapeRune
                rw [if_neg (by rintro (hh | hh) <;> omega), if_pos hp]
              rw [he, List.append_assoc]
              show stringToBytes (goReplacer (c0 :: (quoteCore ip rest ++ s))) = _
              rw [gr_pass _ (by omega) (by omega) h34 h92, stb_pass _ h92,
                ih rest (by omega) hsafe2 h256r s]
              rfl
            · obtain ⟨hlt32, hnl⟩ := h
              have hnl2 : ¬(7 ≤ c0 ∧ c0 ≤ 13) := by
                intro h7
                simp [h7.1, h7.2] at hnl
              have hp : isPrintGo ip c0 = false := by
                unfold isPrintGo
                rw [if_pos hlt]
                simp only [decide_eq_false_iff_not]
                omega
              have he : escapeRune ip c0 [c0] = 92 :: 120 :: hex2 c0 := by
                unfold escapeRune
                rw [if_neg (by rintro (hh | hh) <;> omega), if_neg (by simp [hp]),
                  if_neg (by omega), if_neg (by omega), if_neg (by omega),
                  if_neg (by omega), if_neg (by omega), if_neg (by omega),
                  if_neg (by omega), if_pos (Or.inl hlt32)]
                rfl
              rw [he, List.append_assoc, xchunk_step c0 (by omega) _,
                ih rest (by omega) hsafe2 h256r s]
              rfl
            · subst h
              have hp : isPrintGo ip 127 = false := by
                unfold isPrintGo
                simp
              have he : escapeRune ip 127 [127] = 92 :: 120 :: hex2 127 := by
                unfold escapeRune
                rw [if_neg (by rintro (hh | hh) <;> omega), if_neg (by simp [hp]),
                  if_neg (by omega), if_neg (by omega), if_neg (by omega),
                  if_neg (by omega), if_neg (by omega), if_neg (by omega),
                  if_neg (by omega), if_pos (Or.inr rfl)]
                rfl
              rw [he, List.append_assoc, xchunk_step 127 (by omega) _,
                ih rest (by omega) hsafe2 h256r s]
              rfl
        · -- multibyte printable rune
          obtain ⟨hw2, hr80, hmem⟩ := hcase
          simp only [Bool.or_eq_true, Bool.and_eq_true, decide_eq_true_eq] at hclass
          have hp : isPrintGo ip (utf8Decode1 (c0 :: rest)).1 = true := by
            rcases hclass with ((h | h) | h) | h
            · omega
            · exact h.1
            · exact absurd h.1 (by omega)
            · omega
          have he : escapeRune ip (utf8Decode1 (c0 :: rest)).1
              ((c0 :: rest).take (utf8Decode1 (c0 :: rest)).2) =
              (c0 :: rest).take (utf8Decode1 (c0 :: rest)).2 := by
            unfold escapeRune
            rw [if_neg (by rintro (hh | hh) <;> omega), if_pos hp]
          rw [qc_cons_valid ip c0 rest hinv, he, List.append_assoc,
            gr_list_pass _ (fun x hx => by have := hmem x hx; omega),
            stb_list_pass _ (fun x hx => by have := hmem x hx; omega),
            ih ((c0 :: rest).drop (utf8Decode1 (c0 :: rest)).2)
              (by simp only [List.length_drop, List.length_cons]; omega)
              hsafe2
              (fun x hx => h256 x (List.drop_subset _ _ hx)) s,
            ← List.append_assoc, List.take_append_drop]

theorem gr_open (t : List Nat) : goReplacer (34 :: t) = goReplacer t := rfl

/-- C3 (counterexample): decode-after-encode is not the identity on every
byte string free of literal \xHH substrings — the one-byte string
consisting of a newline (too short to contain any four-character \xHH
pattern) encodes to the two characters backslash-n, which the decoder
passes through unchanged; likewise the single printable backslash
character fails to round-trip (it encodes to backslash-quote after the
replacer), refuting "printable Unicode text round-trips exactly". -/
theorem C3_roundtrip_counterexample :
    stringToBytes (bytesToString isPrintStub [10]) = [92, 110] ∧
    stringToBytes (bytesToString isPrintStub [10]) ≠ [10] ∧
    stringToBytes (bytesToString isPrintStub [92]) = [92, 34] ∧
    stringToBytes (bytesToString isPrintStub [92]) ≠ [92] := by
  have h1 : bytesToString isPrintStub [10] = [92, 110] := by
    unfold bytesToString
    rw [qc_cons_valid isPrintStub 10 [] (by decide)]
    norm_num [utf8Decode1, qc_nil, escapeRune, isPrintGo]
    rfl
  have h2 : bytesToString isPrintStub [92] = [92, 34] := by
    unfold bytesToString
    rw [qc_cons_valid isPrintStub 92 [] (by decide)]
    norm_num [utf8Decode1, qc_nil, escapeRune, isPrintGo]
    rfl
  have hd1 : stringToBytes [92, 110] = [92, 110] := by simp [stringToBytes]
  have hd2 : stringToBytes [92, 34] = [92, 34] := by simp [stringToBytes]
  refine ⟨by rw [h1, hd1], by rw [h1, hd1]; simp, by rw [h2, hd2], by rw [h2, hd2]; simp⟩


/-- C3 (amended): decode-after-encode is the identity on every byte
string (bytes < 256) whose UTF-8 chunks contain no backslash, none of
the control bytes 0x07-0x0d (those become the letter escapes \\a..\\r,
which the decoder does not recognize), and no non-printable rune at or
above 0x80 (those become \\uHHHH/\\UHHHHHHHH escapes, also not
recognized); the remaining chunks — the double quote, other printable
runes, and bytes escaped as \\xHH — all round-trip.  In particular,
printable text containing no backslash round-trips. -/
theorem C3_roundtrip_amended (ip : Nat → Bool) (b : List Nat)
    (hsafe : encodeSafe ip b = true) (h256 : ∀ x ∈ b, x < 256) :
    stringToBytes (bytesToString ip b) = b := by
  unfold bytesToString
  rw [gr_open, roundtrip_aux ip b.length b le_rfl hsafe h256 [34]]
  simp [goReplacer, stringToBytes]

/-- C3 (witness): the byte string "a", NUL, "中" — a printable ASCII
letter, a control byte escaped as \\x00, and a printable three-byte
UTF-8 rune — is in the safe class and round-trips exactly. -/
theorem C3_roundtrip_amended_witness :
    encodeSafe isPrintStub [97, 0, 228, 184, 173] = true ∧
    stringToBytes (bytesToString isPrintStub [97, 0, 228, 184, 173]) =
      [97, 0, 228, 184, 173] := by
  have hsafe : encodeSafe isPrintStub [97, 0, 228, 184, 173] = true := by
    rw [es_cons_valid _ _ _ (by decide), Bool.and_eq_true]
    refine ⟨by decide, ?_⟩
    show encodeSafe isPrintStub [0, 228, 184, 173] = true
    rw [es_cons_valid _ _ _ (by decide), Bool.and_eq_true]
    refine ⟨by decide, ?_⟩
    show encodeSafe isPrintStub [228, 184, 173] = true
    rw [es_cons_valid _ _ _ (by decide), Bool.and_eq_true]
    refine ⟨by decide, ?_⟩
    show encodeSafe isPrintStub [] = true
    exact es_nil _
  exact ⟨hsafe, C3_roundtrip_amended isPrintStub _ hsafe (by decide)⟩

/-- C4 (counterexample): the encoder does not represent a newline byte
as the four characters \\x0a — the %q step has already turned the raw
newline into the two characters backslash-n, so the replacer rule
aimed at raw newlines never fires and the encoded form is \\n. -/
theorem C4_newline_counterexample :
    bytesToString isPrintStub [10] = [92, 110] ∧
    bytesToString isPrintStub [10] ≠ [92, 120, 48, 97] := by
  have h1 : bytesToString isPrintStub [10] = [92, 110] := by
    unfold bytesToString
    rw [qc_cons_valid isPrintStub 10 [] (by decide)]
    norm_num [utf8Decode1, qc_nil, escapeRune, isPrintGo]
    rfl
  exact ⟨h1, by rw [h1]; simp⟩

/-- C4 (amended): the encoder represents a newline byte as the
two-character Go letter escape \\n and a carriage return as \\r (the
replacer rules rewriting raw newline/CR bytes to \\x0a/\\x0d never
fire, because %q leaves no raw control bytes in its output); the
encoded form of any byte string still occupies one physical line —
every byte of the encoder output is at least 0x20, so no raw newline
(0x0a) or carriage return (0x0d) ever appears. -/
theorem C4_encoder_newline_amended (ip : Nat → Bool) (b : List Nat) :
    (10 ∉ bytesToString ip b ∧ 13 ∉ bytesToString ip b) ∧
    bytesToString ip [10] = [92, 110] ∧
    bytesToString ip [13] = [92, 114] := by
  refine ⟨⟨fun hmem => ?_, fun hmem => ?_⟩, ?_, ?_⟩
  · exact absurd (bytesToString_ge_32 ip b 10 hmem) (by omega)
  · exact absurd (bytesToString_ge_32 ip b 13 hmem) (by omega)
  · unfold bytesToString
    rw [qc_cons_valid ip 10 [] (by decide)]
    norm_num [utf8Decode1, qc_nil, escapeRune, isPrintGo]
    rfl
  · unfold bytesToString
    rw [qc_cons_valid ip 13 [] (by decide)]
    norm_num [utf8Decode1, qc_nil, escapeRune, isPrintGo]
    rfl

/-- C5 (counterexample): the decoder pattern is \\x followed by two
characters of the class [a-z0-9], not two lowercase-hex characters: the
four characters \\xzz are matched and replaced by the zero byte (the
parse error of "zz" is discarded), not passed through unchanged. -/
theorem C5_decoder_counterexample :
    stringToBytes [92, 120, 122, 122] = [0] ∧
    stringToBytes [92, 120, 122, 122] ≠ [92, 120, 122, 122] := by
  have h : stringToBytes [92, 120, 122, 122] = [0] := by
    rw [stb_esc _ (by decide) (by decide)]
    simp [parseHexByte, hexVal, stringToBytes]
  exact ⟨h, by rw [h]; simp⟩

/-- C5 (amended): the decoder replaces each occurrence of \\x followed
by exactly two characters of the class [a-z0-9]: when both are
lowercase hex digits the match becomes the byte of that value (so every
escape \\x00..\\xff yields exactly that byte); when either is not a
hex digit, the discarded parse error leaves the zero byte; every
character not beginning such a match passes through unchanged. -/
theorem C5_decoder_amended :
    (∀ (c1 c2 : Nat) (t : List Nat), isLowerAlnum c1 = true → isLowerAlnum c2 = true →
      stringToBytes (92 :: 120 :: c1 :: c2 :: t) = parseHexByte c1 c2 :: stringToBytes t) ∧
    (∀ c : Nat, c < 256 → stringToBytes (92 :: 120 :: hex2 c) = [c]) ∧
    (∀ c1 c2 : Nat, hexVal c1 = none ∨ hexVal c2 = none → parseHexByte c1 c2 = 0) ∧
    (∀ (c : Nat) (t : List Nat), c ≠ 92 → stringToBytes (c :: t) = c :: stringToBytes t) ∧
    (∀ (c1 c2 : Nat) (t : List Nat), ¬(isLowerAlnum c1 = true ∧ isLowerAlnum c2 = true) →
      stringToBytes (92 :: 120 :: c1 :: c2 :: t) =
        92 :: stringToBytes (120 :: c1 :: c2 :: t)) := by
  refine ⟨fun c1 c2 t h1 h2 => stb_esc t h1 h2, ?_, ?_,
    fun c t hc => stb_pass t hc, fun c1 c2 t h => stb_esc_bad t h⟩
  · intro c hc
    show stringToBytes (92 :: 120 :: hexDigitChr (c / 16 % 16) :: hexDigitChr (c % 16) :: []) = [c]
    rw [stb_esc _ (isLowerAlnum_hexDigitChr _ (by omega)) (isLowerAlnum_hexDigitChr _ (by omega)),
      parseHexByte_hex2 c hc]
    simp [stringToBytes]
  · intro c1 c2 h
    unfold parseHexByte
    rcases h with h | h
    · rw [h]
    · cases hc1 : hexVal c1 <;> rw [h]

/-- C5 (witness): concrete instances of the amended behavior — \\xab
decodes to byte 0xab, \\xz9 (matched by the class, unparsable as hex)
decodes to the zero byte, and a leading ordinary character passes
through. -/
theorem C5_decoder_amended_witness :
    stringToBytes [92, 120, 97, 98] = [171] ∧
    stringToBytes [92, 120, 122, 57] = [0] ∧
    stringToBytes [65, 92, 120, 48, 49] = [65, 1] := by
  have h := C5_decoder_amended
  refine ⟨?_, ?_, ?_⟩
  · have h2 := h.2.1 171 (by omega)
    simpa [hex2, hexDigitChr] using h2
  · have h2 := h.1 122 57 [] (by decide) (by decide)
    rw [h2, h.2.2.1 122 57 (Or.inl (by decide))]
    simp [stringToBytes]
  · rw [h.2.2.2.1 65 _ (by omega)]
    have h2 := h.2.1 1 (by omega)
    simpa [hex2, hexDigitChr] using h2


/-- C4 (witness): the amended encoder facts instantiated at the concrete
newline and carriage-return inputs. -/
theorem C4_encoder_newline_amended_witness :
    bytesToString isPrintStub [10] = [92, 110] ∧
    bytesToString isPrintStub [13] = [92, 114] :=
  ⟨(C4_encoder_newline_amended isPrintStub [10]).2.1,
   (C4_encoder_newline_amended isPrintStub [13]).2.2⟩

/-- C7 (witness): the cap-and-drop facts instantiated at a concrete
three-line history with budget 2. -/
theorem C7_keepMaxLine_witness :
    (keepMaxLine ["a", "b", "c"] 2).length ≤ 2 ∧
    keepMaxLine ["a", "b", "c"] 2 =
      (keepMaxLineFold ["a", "b", "c"]).drop
        ((keepMaxLineFold ["a", "b", "c"]).length - 2) :=
  C7_keepMaxLine_cap_drops_oldest ["a", "b", "c"] 2

end BoltCli
